import Mathlib

/-!
Verification of the spc_ingestion core (src/spc_ingestion/src/lib.rs).

The Rust core exposes six functions over PyO3: `hash_blake3`,
`hash_blake3_keyed`, `normalize_unicode_nfc`, `normalize_unicode_nfd`,
`compute_merkle_root` and `segment_graphemes`.  This file gives a shallow
embedding of those operations and proves the specified properties about
them.  Machine bytes and 32-bit words are modelled as `Nat` with explicit
`% 2^32` / `% 256` reductions; byte strings are `List Nat`; fallible calls
return `Except PipelineError`.

The hashing functions delegate to the `blake3` crate, whose source is not
part of this repository; the BLAKE3 algorithm is embedded here in full
(compression function, chunking, and the binary tree combining step) from
its public specification, so that digests are genuinely computable.
Recursions that walk byte streams use an explicit fuel argument equal to
the input length so that every definition reduces inside the kernel.
-/

namespace SpcIngestion

/-- Error taxonomy of the core (spec §7): `InvalidKeyLength` for keyed
hashing with a key that is not 32 bytes, `EmptyInputError` for aggregation
of zero digests, `InvalidEncoding` for text that is not valid decoded
text. -/
inductive PipelineError where
  | invalidKeyLength
  | emptyInputError
  | invalidEncoding
  deriving DecidableEq, Repr

/-! ### 32-bit word arithmetic -/

/-- Reduce a natural number to a 32-bit word. -/
def w32 (x : Nat) : Nat := x % 4294967296

/-- 32-bit wrapping addition. -/
def wadd (a b : Nat) : Nat := (a + b) % 4294967296

/-- Rotate a 32-bit word right by `n` bits (`0 < n < 32`, operand `< 2^32`). -/
def rotr (x n : Nat) : Nat := ((x >>> n) ||| (x <<< (32 - n))) % 4294967296

/-! ### The BLAKE3 compression function -/

/-- Initialization vector of BLAKE3 (the first eight SHA-256 IV words). -/
def IV : List Nat :=
  [0x6A09E667, 0xBB67AE85, 0x3C6EF372, 0xA54FF53A,
   0x510E527F, 0x9B05688C, 0x1F83D9AB, 0x5BE0CD19]

/-- Message word permutation applied between BLAKE3 rounds. -/
def msgPermutation : List Nat := [2, 6, 3, 10, 7, 0, 4, 13, 1, 11, 12, 5, 9, 14, 15, 8]

/-- Domain-separation flag bits of BLAKE3. -/
def CHUNK_START : Nat := 1
def CHUNK_END : Nat := 2
def PARENT : Nat := 4
def ROOT : Nat := 8
def KEYED_HASH : Nat := 16

/-- The BLAKE3 quarter-round `g` acting on state positions `a b c d` with
message words `mx my`. -/
def gfun (v : List Nat) (a b c d mx my : Nat) : List Nat :=
  let va := wadd (wadd (v.getD a 0) (v.getD b 0)) mx
  let vd := rotr ((v.getD d 0) ^^^ va) 16
  let vc := wadd (v.getD c 0) vd
  let vb := rotr ((v.getD b 0) ^^^ vc) 12
  let va2 := wadd (wadd va vb) my
  let vd2 := rotr (vd ^^^ va2) 8
  let vc2 := wadd vc vd2
  let vb2 := rotr (vb ^^^ vc2) 7
  (((v.set a va2).set b vb2).set c vc2).set d vd2

/-- One full BLAKE3 round: four column mixes then four diagonal mixes. -/
def roundG (v m : List Nat) : List Nat :=
  let v := gfun v 0 4 8 12 (m.getD 0 0) (m.getD 1 0)
  let v := gfun v 1 5 9 13 (m.getD 2 0) (m.getD 3 0)
  let v := gfun v 2 6 10 14 (m.getD 4 0) (m.getD 5 0)
  let v := gfun v 3 7 11 15 (m.getD 6 0) (m.getD 7 0)
  let v := gfun v 0 5 10 15 (m.getD 8 0) (m.getD 9 0)
  let v := gfun v 1 6 11 12 (m.getD 10 0) (m.getD 11 0)
  let v := gfun v 2 7 8 13 (m.getD 12 0) (m.getD 13 0)
  gfun v 3 4 9 14 (m.getD 14 0) (m.getD 15 0)

/-- Apply the BLAKE3 message permutation to a block of 16 words. -/
def permuteMsg (m : List Nat) : List Nat := msgPermutation.map (fun i => m.getD i 0)

/-- Seven BLAKE3 rounds over the full 16-word state, message permuted
between rounds. -/
def compressV (cv block : List Nat) (counter blockLen flags : Nat) : List Nat :=
  let v0 := cv ++ IV.take 4 ++ [w32 counter, w32 (counter / 4294967296), blockLen, flags]
  let v1 := roundG v0 block
  let m1 := permuteMsg block
  let v2 := roundG v1 m1
  let m2 := permuteMsg m1
  let v3 := roundG v2 m2
  let m3 := permuteMsg m2
  let v4 := roundG v3 m3
  let m4 := permuteMsg m3
  let v5 := roundG v4 m4
  let m5 := permuteMsg m4
  let v6 := roundG v5 m5
  let m6 := permuteMsg m5
  roundG v6 m6

/-- Fold the final 16-word state to the next 8-word chaining value. -/
def cvOut (v : List Nat) : List Nat :=
  (List.range 8).map (fun i => (v.getD i 0) ^^^ (v.getD (i + 8) 0))

/-- The BLAKE3 compression function: 8-word chaining value, 16-word message
block, 64-bit counter, block length and flags; returns the next 8-word
chaining value. -/
def compress (cv block : List Nat) (counter blockLen flags : Nat) : List Nat :=
  cvOut (compressV cv block counter blockLen flags)

/-! ### Bytes, blocks and chunks -/

/-- Interpret a byte list as little-endian 32-bit words (a trailing group
of fewer than four bytes is zero-padded, matching the zero-padded blocks
of BLAKE3). -/
def bytesToWordsLE : List Nat → List Nat
  | b0 :: b1 :: b2 :: b3 :: rest =>
      (b0 + 256 * b1 + 65536 * b2 + 16777216 * b3) :: bytesToWordsLE rest
  | [b0, b1, b2] => [b0 + 256 * b1 + 65536 * b2]
  | [b0, b1] => [b0 + 256 * b1]
  | [b0] => [b0]
  | [] => []

/-- Zero-pad a block of at most 64 bytes to exactly 64 bytes. -/
def padTo64 (bs : List Nat) : List Nat := bs ++ List.replicate (64 - bs.length) 0

/-- Split a chunk's bytes into (16-word block, true byte length) pairs;
fuel-driven so that the definition is structurally recursive. -/
def toBlocksGo : Nat → List Nat → List (List Nat × Nat)
  | _, [] => []
  | 0, _ => []
  | fuel + 1, bs =>
      (bytesToWordsLE (padTo64 (bs.take 64)), min bs.length 64) :: toBlocksGo fuel (bs.drop 64)

/-- Blocks of one chunk; the empty chunk is a single all-zero block of
length 0. -/
def toBlocks (bs : List Nat) : List (List Nat × Nat) :=
  if bs.isEmpty then [(List.replicate 16 0, 0)] else toBlocksGo bs.length bs

/-- Process the blocks of one chunk: fold the compression function over the
blocks, giving the first block `CHUNK_START` and the last block `CHUNK_END`
(plus `ROOT` when this chunk is the whole tree). -/
def chunkGo (t flags : Nat) (isRoot : Bool) : List Nat → Nat → List (List Nat × Nat) → List Nat
  | cv, _, [] => cv
  | cv, startFlag, (w, len) :: rest =>
      let endFlag := if rest.isEmpty then CHUNK_END + (if isRoot then ROOT else 0) else 0
      chunkGo t flags isRoot (compress cv w t len (flags + startFlag + endFlag)) 0 rest

/-- Chaining value of chunk number `t` with content `bytes`. -/
def chunkCV (key : List Nat) (t : Nat) (bytes : List Nat) (flags : Nat) (isRoot : Bool) :
    List Nat :=
  chunkGo t flags isRoot key CHUNK_START (toBlocks bytes)

/-- Chaining value of a parent node over two child chaining values. -/
def parentCV (key : List Nat) (flags : Nat) (l r : List Nat) (isRoot : Bool) : List Nat :=
  compress key (l ++ r) 0 64 (flags + PARENT + (if isRoot then ROOT else 0))

/-- Split a byte stream into chunks of 1024 bytes (fuel-driven). -/
def chunkifyGo : Nat → List Nat → List (List Nat)
  | _, [] => []
  | 0, _ => []
  | fuel + 1, bs => bs.take 1024 :: chunkifyGo fuel (bs.drop 1024)

/-- Chunks of the input; the empty input is one empty chunk. -/
def chunkify (bs : List Nat) : List (List Nat) :=
  if bs.isEmpty then [[]] else chunkifyGo bs.length bs

/-- Largest power of two strictly below `n` (for `n ≥ 2`): the number of
chunks that go to the left subtree in the BLAKE3 tree. -/
def leftCountGo : Nat → Nat → Nat → Nat
  | 0, p, _ => p
  | fuel + 1, p, n => if 2 * p < n then leftCountGo fuel (2 * p) n else p

def leftCount (n : Nat) : Nat := leftCountGo n 1 n

/-- Combine the chunk chaining values into the root chaining value along
the BLAKE3 binary tree (fuel-driven; fuel = number of chaining values). -/
def combineGo (key : List Nat) (flags : Nat) : Nat → List (List Nat) → Bool → List Nat
  | 0, cvs, _ => cvs.headD (List.replicate 8 0)
  | fuel + 1, cvs, isRoot =>
      match cvs with
      | [cv] => cv
      | _ =>
          let k := leftCount cvs.length
          parentCV key flags
            (combineGo key flags fuel (cvs.take k) false)
            (combineGo key flags fuel (cvs.drop k) false) isRoot

/-- The 8-word BLAKE3 digest of `bytes` under `key` (the key words, `IV`
when unkeyed) and base `flags`. -/
def blake3Words (key : List Nat) (flags : Nat) (bytes : List Nat) : List Nat :=
  match chunkify bytes with
  | [c] => chunkCV key 0 c flags true
  | chunks =>
      let cvs := (chunks.enum).map (fun p => chunkCV key p.1 p.2 flags false)
      combineGo key flags cvs.length cvs true

/-! ### Hex encoding -/

/-- The sixteen lowercase hex digit characters. -/
def hexDigitChars : List Char := "0123456789abcdef".data

/-- Lowercase hex digit of a nibble. -/
def hexDigit (n : Nat) : Char := hexDigitChars.getD n '0'

/-- Two lowercase hex characters of a byte, high nibble first. -/
def byteToHexChars (b : Nat) : List Char := [hexDigit (b / 16), hexDigit (b % 16)]

/-- Little-endian bytes of a 32-bit word. -/
def wordLEBytes (w : Nat) : List Nat :=
  [w % 256, w / 256 % 256, w / 65536 % 256, w / 16777216 % 256]

/-- The 32 digest bytes of an 8-word chaining value. -/
def digestBytes (words : List Nat) : List Nat := (words.map wordLEBytes).flatten

/-- Hex string of a digest given by its 8 words (as `Hash::to_hex` does). -/
def digestHex (words : List Nat) : String := ⟨(digestBytes words).map byteToHexChars |>.flatten⟩

/-! ### The four hashing / aggregation API functions -/

/-- Embedding of `hash_blake3` (src/spc_ingestion/src/lib.rs:15-19): the
unkeyed BLAKE3 hash of `data`, rendered as a lowercase hex string.  The
Rust function wraps the result in `PyResult` but never returns an error,
so it is embedded as a total function. -/
def hash_blake3 (data : List Nat) : String := digestHex (blake3Words IV 0 data)

/-- Embedding of `hash_blake3_keyed` (src/spc_ingestion/src/lib.rs:23-39):
rejects keys that are not exactly 32 bytes, otherwise hashes with the
keyed BLAKE3 mode (key words replace the IV, `KEYED_HASH` flag set). -/
def hash_blake3_keyed (data key : List Nat) : Except PipelineError String :=
  if key.length ≠ 32 then
    .error .invalidKeyLength
  else
    .ok (digestHex (blake3Words (bytesToWordsLE key) KEYED_HASH data))

/-- UTF-8 encoding of a scalar value (Rust `str` bytes are UTF-8). -/
def utf8EncodeChar (n : Nat) : List Nat :=
  if n < 128 then [n]
  else if n < 2048 then [192 + n / 64, 128 + n % 64]
  else if n < 65536 then [224 + n / 4096, 128 + n / 64 % 64, 128 + n % 64]
  else [240 + n / 262144, 128 + n / 4096 % 64, 128 + n / 64 % 64, 128 + n % 64]

/-- Byte representation of a string (Rust `String::as_bytes`). -/
def utf8Encode (s : String) : List Nat := s.data.flatMap (fun c => utf8EncodeChar c.toNat)

/-- Byte-wise lexicographic comparison of byte lists, the order underlying
Rust's `Ord` for `String`. -/
def bytesLe : List Nat → List Nat → Bool
  | a :: as, b :: bs =>
      if a < b then true
      else if b < a then false
      else bytesLe as bs
  | [], _ => true
  | _, _ => false

/-- Byte-wise lexicographic order on strings: the comparison used by
`sorted_hashes.sort()` in `compute_merkle_root`. -/
def strLe (s t : String) : Prop := bytesLe (utf8Encode s) (utf8Encode t) = true

instance : DecidableRel strLe := fun _ _ => inferInstanceAs (Decidable (_ = true))

/-- Concatenation of a list of strings (Rust `Vec<String>::join("")`). -/
def joinAll (l : List String) : String := l.foldl (· ++ ·) ""

/-- Embedding of `compute_merkle_root` (src/spc_ingestion/src/lib.rs:57-71):
reject the empty list, otherwise sort the digest strings byte-wise
lexicographically (Rust `sort()` is a stable sort; a stable sort is
embedded as insertion sort, which computes the same list), join them into
one string and hash that string's bytes with unkeyed BLAKE3. -/
def compute_merkle_root (hashes : List String) : Except PipelineError String :=
  if hashes.isEmpty then
    .error .emptyInputError
  else
    .ok (hash_blake3 (utf8Encode (joinAll (List.insertionSort strLe hashes))))

/-- Lowercase-hex character test: a digit `0`-`9` or a letter `a`-`f`. -/
def isLowerHex (c : Char) : Bool :=
  (48 ≤ c.toNat && c.toNat ≤ 57) || (97 ≤ c.toNat && c.toNat ≤ 102)

instance : DecidableEq (Except PipelineError String) := fun
  | .ok a, .ok b => decidable_of_iff (a = b) (by simp)
  | .ok _, .error _ => isFalse (by simp)
  | .error _, .ok _ => isFalse (by simp)
  | .error a, .error b => decidable_of_iff (a = b) (by simp)

/-! ### UTF-8 decoding at the API boundary

The Rust core receives its text arguments as already-decoded `&str`
values; the decoding step that produces them lives in the embedding
boundary, outside src/.  Modelled from the spec: `InvalidEncoding` is the
"boundary precondition violation raised by the decoding step that produced
the text, surfaced through this core's API as a rejected call" (spec §7),
so the Normalizer and Segmenter are exposed below behind a strict UTF-8
decoder that rejects malformed byte sequences with `InvalidEncoding`. -/

/-- Continuation byte test (`0x80`-`0xBF`). -/
def isCont (b : Nat) : Bool := 128 ≤ b && b ≤ 191

/-- Strict UTF-8 decoder on byte lists, producing scalar values; rejects
overlong forms, surrogates and out-of-range codepoints.  Fuel-driven
(fuel = number of bytes) so that it reduces in the kernel. -/
def utf8DecodeGo : Nat → List Nat → Option (List Nat)
  | _, [] => some []
  | 0, _ => none
  | fuel + 1, b0 :: rest =>
      if b0 < 128 then (utf8DecodeGo fuel rest).map (b0 :: ·)
      else if 194 ≤ b0 && b0 ≤ 223 then
        match rest with
        | b1 :: rest2 =>
            if isCont b1 then
              (utf8DecodeGo fuel rest2).map (((b0 - 192) * 64 + (b1 - 128)) :: ·)
            else none
        | [] => none
      else if 224 ≤ b0 && b0 ≤ 239 then
        match rest with
        | b1 :: b2 :: rest2 =>
            if (if b0 = 224 then 160 ≤ b1 && b1 ≤ 191
                else if b0 = 237 then 128 ≤ b1 && b1 ≤ 159
                else isCont b1) && isCont b2 then
              (utf8DecodeGo fuel rest2).map
                (((b0 - 224) * 4096 + (b1 - 128) * 64 + (b2 - 128)) :: ·)
            else none
        | _ => none
      else if 240 ≤ b0 && b0 ≤ 244 then
        match rest with
        | b1 :: b2 :: b3 :: rest2 =>
            if (if b0 = 240 then 144 ≤ b1 && b1 ≤ 191
                else if b0 = 244 then 128 ≤ b1 && b1 ≤ 143
                else isCont b1) && isCont b2 && isCont b3 then
              (utf8DecodeGo fuel rest2).map
                (((b0 - 240) * 262144 + (b1 - 128) * 4096 + (b2 - 128) * 64 + (b3 - 128)) :: ·)
            else none
        | _ => none
      else none

/-- Decode a byte list as UTF-8 text, or fail. -/
def utf8Decode (bytes : List Nat) : Option (List Char) :=
  (utf8DecodeGo bytes.length bytes).map (fun cps => cps.map Char.ofNat)

/-! ### The Normalizer

The Rust code implements `normalize_unicode_nfc` / `normalize_unicode_nfd`
by delegating to the `unicode_normalization` crate (`text.nfc()`,
`text.nfd()`), whose source and Unicode data tables are not part of this
repository.  Modelled from the spec: "implement Unicode Normalization
Forms C and D respectively" (spec §4.2), embedded as the UAX #15
algorithm — full canonical decomposition, the canonical ordering of
combining marks, and (for NFC) the canonical recomposition pass —
parameterised over a character-data record `UniData` and instantiated
with an explicit table `udata` of representative canonical data (bases,
precomposed letters, combining marks).  The data invariants the Unicode
tables satisfy are stated as `GoodData` and proved for `udata`. -/

/-- Character data that drives normalization: canonical combining class,
(fully expanded) canonical decomposition into a starter/mark pair, and
canonical pairwise composition. -/
structure UniData where
  ccc : Char → Nat
  dec : Char → Option (Char × Char)
  comp : Char → Char → Option Char

/-- Canonical decomposition of one character (the data holds fully
expanded decompositions, so one step is full decomposition). -/
def decChar (d : UniData) (c : Char) : List Char :=
  match d.dec c with
  | some (a, b) => [a, b]
  | none => [c]

/-- Full canonical decomposition of a character sequence. -/
def decompose (d : UniData) (s : List Char) : List Char := s.flatMap (decChar d)

/-- Insert a combining mark into the reversed output prefix: the mark
moves past exactly the marks of strictly greater combining class
(canonical ordering algorithm); starters (ccc 0) always act as a
barrier. -/
def insMark (d : UniData) (c : Char) : List Char → List Char
  | [] => [c]
  | x :: xs => if d.ccc c < d.ccc x then x :: insMark d c xs else c :: x :: xs

/-- Canonical ordering pass over a reversed accumulator. -/
def reorderGo (d : UniData) : List Char → List Char → List Char
  | racc, [] => racc.reverse
  | racc, c :: rest =>
      if d.ccc c = 0 then reorderGo d (c :: racc) rest
      else reorderGo d (insMark d c racc) rest

/-- Canonical ordering: stable-sort every maximal run of nonzero-ccc
characters by combining class. -/
def reorder (d : UniData) (s : List Char) : List Char := reorderGo d [] s

/-- Normalization Form D over a character list. -/
def nfdL (d : UniData) (s : List Char) : List Char := reorder d (decompose d s)

/-- Canonical composition pass (UAX #15): walk the decomposed, ordered
text keeping the last starter `L`, the (reversed) combining marks kept
since `L`, and the (reversed) finished output; a character composes with
`L` when the pair composes and no kept mark of greater-or-equal class
blocks it. -/
def composeGo (d : UniData) : Option Char → List Char → List Char → List Char → List Char
  | starter?, rmarks, racc, [] =>
      ((match starter? with
        | some L => rmarks ++ [L]
        | none => rmarks) ++ racc).reverse
  | some L, rmarks, racc, c :: rest =>
      match d.comp L c with
      | some P =>
          if (match rmarks with | [] => true | m :: _ => d.ccc m < d.ccc c) then
            composeGo d (some P) rmarks racc rest
          else if d.ccc c = 0 then
            composeGo d (some c) [] (rmarks ++ L :: racc) rest
          else
            composeGo d (some L) (c :: rmarks) racc rest
      | none =>
          if d.ccc c = 0 then
            composeGo d (some c) [] (rmarks ++ L :: racc) rest
          else
            composeGo d (some L) (c :: rmarks) racc rest
  | none, rmarks, racc, c :: rest =>
      if d.ccc c = 0 then composeGo d (some c) [] (rmarks ++ racc) rest
      else composeGo d none (c :: rmarks) racc rest

/-- Canonical composition of a decomposed, canonically ordered sequence. -/
def composeL (d : UniData) (s : List Char) : List Char := composeGo d none [] [] s

/-- Normalization Form C over a character list. -/
def nfcL (d : UniData) (s : List Char) : List Char := composeL d (nfdL d s)

/-- One step of the canonical ordering pass, viewed as a left fold over
the reversed output prefix. -/
def stepR (d : UniData) (racc : List Char) (c : Char) : List Char :=
  if d.ccc c = 0 then c :: racc else insMark d c racc

/-- No character of the list decomposes further. -/
def DecFree (d : UniData) (l : List Char) : Prop := ∀ c ∈ l, d.dec c = none

/-- Canonically ordered: every adjacent pair is already in UAX #15
canonical order (the follower is a starter, or the classes do not
strictly descend within a run). -/
def OrdOK (d : UniData) (l : List Char) : Prop :=
  List.Chain' (fun x y => d.ccc y = 0 ∨ d.ccc x ≤ d.ccc y) l

/-- Invariants of canonical Unicode character data under which the UAX #15
algorithm is idempotent: decompositions are fully expanded and start with
a starter, composition is inverse to decomposition, only starter+mark
pairs compose, composites are starters, and no decomposable character is
the left argument of a composition (single-level composites). -/
structure GoodData (d : UniData) : Prop where
  dec_closed : ∀ c a b, d.dec c = some (a, b) → d.dec a = none ∧ d.dec b = none
  dec_starter : ∀ c a b, d.dec c = some (a, b) → d.ccc c = 0 ∧ d.ccc a = 0
  comp_dec : ∀ a b p, d.comp a b = some p → d.dec p = some (a, b)
  comp_mark : ∀ a b p, d.comp a b = some p → d.ccc b ≠ 0
  comp_starter : ∀ a b p, d.comp a b = some p → d.ccc p = 0
  comp_left : ∀ a b p, d.comp a b = some p → d.dec a = none

/-- Combining classes of the modelled combining marks (values from the
Unicode Character Database). -/
def cccTable : List (Char × Nat) :=
  [(Char.ofNat 0x301, 230),  -- combining acute accent
   (Char.ofNat 0x302, 230),  -- combining circumflex accent
   (Char.ofNat 0x308, 230),  -- combining diaeresis
   (Char.ofNat 0x323, 220),  -- combining dot below
   (Char.ofNat 0x327, 202)]  -- combining cedilla

/-- Canonical decompositions of the modelled precomposed letters
(composite, starter, mark), from the Unicode Character Database. -/
def decTable : List (Char × Char × Char) :=
  [(Char.ofNat 0xE9, 'e', Char.ofNat 0x301),    -- e acute
   (Char.ofNat 0xEA, 'e', Char.ofNat 0x302),    -- e circumflex
   (Char.ofNat 0xE4, 'a', Char.ofNat 0x308),    -- a diaeresis
   (Char.ofNat 0xE7, 'c', Char.ofNat 0x327),    -- c cedilla
   (Char.ofNat 0x1EB9, 'e', Char.ofNat 0x323),  -- e dot below
   (Char.ofNat 0xF6, 'o', Char.ofNat 0x308)]    -- o diaeresis

/-- The modelled character data record. -/
def udata : UniData where
  ccc c := ((cccTable.find? (fun p => p.1 == c)).map Prod.snd).getD 0
  dec c := (decTable.find? (fun p => p.1 == c)).map Prod.snd
  comp a b := (decTable.find? (fun p => p.2.1 == a && p.2.2 == b)).map Prod.fst

/-- Embedding of `normalize_unicode_nfc` (src/spc_ingestion/src/lib.rs:43-46)
over the modelled character data. -/
def normalize_unicode_nfc (text : String) : String := ⟨nfcL udata text.data⟩

/-- Embedding of `normalize_unicode_nfd` (src/spc_ingestion/src/lib.rs:50-53)
over the modelled character data. -/
def normalize_unicode_nfd (text : String) : String := ⟨nfdL udata text.data⟩

/-! ### The Segmenter

The Rust code implements `segment_graphemes` by delegating to the
`unicode_segmentation` crate (`text.graphemes(true)`), whose source and
Unicode data are not part of this repository.  Modelled from the spec:
extended grapheme clusters are "a base letter with combining marks, or an
emoji plus a modifier" kept as single elements (spec §4.3, §8), embedded
as maximal runs of one leading character followed by grapheme-extending
characters from an explicit table. -/

/-- Grapheme-extending characters of the model: the modelled combining
marks, zero width joiner, variation selector-16 and the emoji skin-tone
modifiers. -/
def extendChars : List Char :=
  [Char.ofNat 0x301, Char.ofNat 0x302, Char.ofNat 0x308, Char.ofNat 0x323, Char.ofNat 0x327,
   Char.ofNat 0x200D, Char.ofNat 0xFE0F,
   Char.ofNat 0x1F3FB, Char.ofNat 0x1F3FC, Char.ofNat 0x1F3FD, Char.ofNat 0x1F3FE,
   Char.ofNat 0x1F3FF]

/-- Is this character a grapheme extender in the model? -/
def isExtendChar (c : Char) : Bool := extendChars.contains c

/-- Collect the current cluster (base plus reversed extenders) and split
the rest of the text at every non-extender. -/
def segGo (b : Char) (ext : List Char) : List Char → List (List Char)
  | [] => [b :: ext.reverse]
  | c :: rest =>
      if isExtendChar c then segGo b (c :: ext) rest
      else (b :: ext.reverse) :: segGo c [] rest

/-- Split a character list into extended grapheme clusters. -/
def graphemeSplit : List Char → List (List Char)
  | [] => []
  | c :: rest => segGo c [] rest

/-- Embedding of `segment_graphemes` (src/spc_ingestion/src/lib.rs:75-84)
over the modelled extender data. -/
def segment_graphemes (text : String) : List String :=
  (graphemeSplit text.data).map (fun g => ⟨g⟩)

/-! ### Boundary-checked calls (spec §7, `InvalidEncoding`) -/

/-- Modelled from the spec: the Normalizer called through the API boundary
on raw bytes; text that is not valid decoded text is rejected with
`InvalidEncoding`. -/
def nfcOfBytes (bytes : List Nat) : Except PipelineError String :=
  match utf8Decode bytes with
  | none => .error .invalidEncoding
  | some cs => .ok (normalize_unicode_nfc ⟨cs⟩)

/-- Modelled from the spec: NFD through the checked API boundary. -/
def nfdOfBytes (bytes : List Nat) : Except PipelineError String :=
  match utf8Decode bytes with
  | none => .error .invalidEncoding
  | some cs => .ok (normalize_unicode_nfd ⟨cs⟩)

/-- Modelled from the spec: the Segmenter through the checked API
boundary. -/
def segmentOfBytes (bytes : List Nat) : Except PipelineError (List String) :=
  match utf8Decode bytes with
  | none => .error .invalidEncoding
  | some cs => .ok (segment_graphemes ⟨cs⟩)

/-! ### Shape of digests -/

theorem cvOut_length (v : List Nat) : (cvOut v).length = 8 := by
  simp [cvOut]

theorem compress_length (cv block : List Nat) (c l f : Nat) :
    (compress cv block c l f).length = 8 := cvOut_length _

theorem chunkGo_length (t flags : Nat) (isRoot : Bool) (bs : List (List Nat × Nat)) :
    ∀ (cv : List Nat) (s : Nat), cv.length = 8 → (chunkGo t flags isRoot cv s bs).length = 8 := by
  induction bs with
  | nil => intro cv s h; exact h
  | cons hd rest ih =>
    intro cv s _
    obtain ⟨w, len⟩ := hd
    simp only [chunkGo]
    exact ih _ _ (compress_length ..)

/-- Little-endian word conversion turns `4 * k` bytes into `k` words. -/
theorem bytesToWordsLE_length :
    ∀ bs : List Nat, (bytesToWordsLE bs).length = (bs.length + 3) / 4
  | [] => by simp [bytesToWordsLE]
  | [b0] => by simp [bytesToWordsLE]
  | [b0, b1] => by simp [bytesToWordsLE]
  | [b0, b1, b2] => by simp [bytesToWordsLE]
  | b0 :: b1 :: b2 :: b3 :: rest => by
    simp only [bytesToWordsLE, List.length_cons]
    rw [bytesToWordsLE_length rest]
    omega

theorem chunkCV_length (key : List Nat) (t : Nat) (bytes : List Nat) (flags : Nat)
    (isRoot : Bool) (hkey : key.length = 8) : (chunkCV key t bytes flags isRoot).length = 8 :=
  chunkGo_length _ _ _ _ _ _ hkey

theorem combineGo_length (key : List Nat) (flags : Nat) :
    ∀ (fuel : Nat) (cvs : List (List Nat)) (isRoot : Bool),
      (∀ cv ∈ cvs, cv.length = 8) → (combineGo key flags fuel cvs isRoot).length = 8 := by
  intro fuel
  induction fuel with
  | zero =>
    intro cvs isRoot h
    rcases cvs with _ | ⟨cv, rest⟩
    · simp [combineGo]
    · simpa [combineGo] using h cv (by simp)
  | succ n ih =>
    intro cvs isRoot h
    rcases cvs with _ | ⟨cv, _ | ⟨cv2, rest⟩⟩
    · simp only [combineGo]
      exact compress_length ..
    · simpa [combineGo] using h cv (by simp)
    · simp only [combineGo]
      exact compress_length ..

theorem blake3Words_length (key : List Nat) (flags : Nat) (bytes : List Nat)
    (hkey : key.length = 8) : (blake3Words key flags bytes).length = 8 := by
  unfold blake3Words
  split
  · exact chunkCV_length _ _ _ _ _ hkey
  · apply combineGo_length
    intro cv hcv
    simp only [List.mem_map] at hcv
    obtain ⟨p, _, rfl⟩ := hcv
    exact chunkCV_length _ _ _ _ _ hkey

theorem digestBytes_length (ws : List Nat) : (digestBytes ws).length = 4 * ws.length := by
  induction ws with
  | nil => rfl
  | cons w rest ih =>
    simp only [digestBytes, List.map_cons, List.flatten_cons, List.length_append,
      List.length_cons] at ih ⊢
    simp [wordLEBytes, ih]
    omega

theorem isLowerHex_hexDigit (n : Nat) : isLowerHex (hexDigit n) = true := by
  by_cases h : n < 16
  · interval_cases n <;> rfl
  · have h0 : hexDigit n = '0' := by
      apply List.getD_eq_default
      rw [show hexDigitChars.length = 16 from rfl]
      omega
    rw [h0]; rfl

theorem hexFlatten_length (bs : List Nat) :
    ((bs.map byteToHexChars).flatten).length = 2 * bs.length := by
  induction bs with
  | nil => rfl
  | cons b rest ih =>
    simp only [List.map_cons, List.flatten_cons, List.length_append, List.length_cons] at ih ⊢
    simp [byteToHexChars, ih]
    omega

theorem digestHex_length (ws : List Nat) (h : ws.length = 8) : (digestHex ws).length = 64 := by
  show (((digestBytes ws).map byteToHexChars).flatten).length = 64
  rw [hexFlatten_length, digestBytes_length, h]

theorem digestHex_lowerHex (ws : List Nat) : (digestHex ws).data.all isLowerHex = true := by
  rw [List.all_eq_true]
  intro c hc
  have hmem : c ∈ ((digestBytes ws).map byteToHexChars).flatten := hc
  simp only [List.mem_flatten, List.mem_map] at hmem
  obtain ⟨l, ⟨b, _, rfl⟩, hcl⟩ := hmem
  simp only [byteToHexChars, List.mem_cons, List.not_mem_nil, or_false] at hcl
  rcases hcl with h | h <;> (subst h; exact isLowerHex_hexDigit _)

/-- Concatenating the empty string on the left is the identity. -/
theorem empty_append_str (s : String) : "" ++ s = s := by cases s; rfl

/-! ### Claims C3, C4, C5, C6, C9, C10 -/

/-- C5: `hash_blake3` is a total, deterministic function over all byte
sequences (its embedding has a non-fallible type, so it never fails):
equal inputs give equal outputs, and every output is a string of exactly
64 lowercase hexadecimal characters. -/
theorem hash_blake3_hex_shape (data : List Nat) :
    (hash_blake3 data).length = 64 ∧
      (hash_blake3 data).data.all isLowerHex = true ∧
      hash_blake3 data = hash_blake3 data := by
  refine ⟨?_, ?_, rfl⟩
  · exact digestHex_length _ (blake3Words_length _ _ _ rfl)
  · exact digestHex_lowerHex _

/-- C6: `hash_blake3_keyed` fails with `InvalidKeyLength` exactly when the
key is not 32 bytes, and for a 32-byte key returns a 64-character
lowercase hexadecimal digest. -/
theorem hash_blake3_keyed_key_length_check (data key : List Nat) :
    (hash_blake3_keyed data key = .error .invalidKeyLength ↔ key.length ≠ 32) ∧
      (key.length = 32 →
        ∃ digest, hash_blake3_keyed data key = .ok digest ∧
          digest.length = 64 ∧ digest.data.all isLowerHex = true) := by
  unfold hash_blake3_keyed
  by_cases h : key.length = 32
  · rw [if_neg (by simp [h])]
    refine ⟨by simp [h], fun _ => ⟨_, rfl, ?_, digestHex_lowerHex _⟩⟩
    refine digestHex_length _ (blake3Words_length _ _ _ ?_)
    rw [bytesToWordsLE_length, h]
  · rw [if_pos h]
    exact ⟨by simp [h], fun hlen => absurd hlen h⟩

/-- Witness for C6 at key lengths 31 (rejected) and 32 (accepted). -/
theorem hash_blake3_keyed_key_length_check_witness :
    (hash_blake3_keyed [] (List.replicate 31 0) = .error .invalidKeyLength) ∧
      ∃ digest, hash_blake3_keyed [] (List.replicate 32 0) = .ok digest ∧
        digest.length = 64 ∧ digest.data.all isLowerHex = true :=
  ⟨(hash_blake3_keyed_key_length_check [] (List.replicate 31 0)).1.mpr (by decide),
   (hash_blake3_keyed_key_length_check [] (List.replicate 32 0)).2 (by decide)⟩

/-- C3: `compute_merkle_root` fails with `EmptyInputError` exactly on the
empty input list, and succeeds with some root on every non-empty input. -/
theorem merkle_root_empty_error_iff (hashes : List String) :
    (compute_merkle_root hashes = .error .emptyInputError ↔ hashes = []) ∧
      (hashes ≠ [] → ∃ root, compute_merkle_root hashes = .ok root) := by
  unfold compute_merkle_root
  rcases hashes with _ | ⟨h, t⟩ <;> simp

/-- Witness for C3: the empty list is rejected and a one-element list is
accepted. -/
theorem merkle_root_empty_error_iff_witness :
    (compute_merkle_root [] = .error .emptyInputError) ∧
      ∃ root, compute_merkle_root ["a"] = .ok root :=
  ⟨(merkle_root_empty_error_iff []).1.mpr rfl,
   (merkle_root_empty_error_iff ["a"]).2 (by simp)⟩

/-- C4: the root of a one-element digest list is the unkeyed hash of that
digest string's bytes. -/
theorem merkle_root_singleton_eq_hash (d : String) :
    compute_merkle_root [d] = .ok (hash_blake3 (utf8Encode d)) := by
  unfold compute_merkle_root
  simp [joinAll, List.insertionSort, List.orderedInsert, empty_append_str]

set_option maxRecDepth 100000 in
set_option maxHeartbeats 1000000 in
/-- C10: `compute_merkle_root` commits to the multiset of digests, not the
set: a duplicated digest changes the root. -/
theorem merkle_root_duplicate_sensitive :
    compute_merkle_root ["ab", "ab"] ≠ compute_merkle_root ["ab"] := by decide

/-- C9: byte input that is not valid decoded text is rejected by the
Normalizer and the Segmenter API boundary with `InvalidEncoding`. -/
theorem invalid_encoding_rejected (bytes : List Nat) (h : utf8Decode bytes = none) :
    nfcOfBytes bytes = .error .invalidEncoding ∧
      nfdOfBytes bytes = .error .invalidEncoding ∧
      segmentOfBytes bytes = .error .invalidEncoding := by
  unfold nfcOfBytes nfdOfBytes segmentOfBytes
  rw [h]
  exact ⟨rfl, rfl, rfl⟩

/-- Witness for C9 at the malformed byte sequence `[0xFF]`. -/
theorem invalid_encoding_rejected_witness :
    utf8Decode [255] = none ∧ nfcOfBytes [255] = .error .invalidEncoding :=
  ⟨by decide, (invalid_encoding_rejected [255] (by decide)).1⟩

/-! ### The byte-lexicographic order on strings (claims C1, C2) -/

theorem bytesLe_cons_iff (x y : Nat) (xs ys : List Nat) :
    bytesLe (x :: xs) (y :: ys) = true ↔ (x < y ∨ (x = y ∧ bytesLe xs ys = true)) := by
  simp only [bytesLe]
  split
  · rename_i h; simp [h]
  · rename_i h
    split
    · rename_i h2
      constructor
      · intro hf; exact absurd hf (by simp)
      · intro hc; rcases hc with hc | ⟨hc, _⟩ <;> omega
    · rename_i h2
      have hxy : x = y := by omega
      simp [hxy]

theorem bytesLe_total : ∀ a b : List Nat, bytesLe a b = true ∨ bytesLe b a = true
  | [], _ => Or.inl rfl
  | _ :: _, [] => Or.inr rfl
  | x :: xs, y :: ys => by
    rcases Nat.lt_trichotomy x y with h | h | h
    · exact Or.inl ((bytesLe_cons_iff ..).mpr (Or.inl h))
    · rcases bytesLe_total xs ys with ih | ih
      · exact Or.inl ((bytesLe_cons_iff ..).mpr (Or.inr ⟨h, ih⟩))
      · exact Or.inr ((bytesLe_cons_iff ..).mpr (Or.inr ⟨h.symm, ih⟩))
    · exact Or.inr ((bytesLe_cons_iff ..).mpr (Or.inl h))

theorem bytesLe_trans : ∀ a b c : List Nat,
    bytesLe a b = true → bytesLe b c = true → bytesLe a c = true
  | [], _, _, _, _ => rfl
  | _ :: _, [], _, h, _ => by simp [bytesLe] at h
  | _ :: _, _ :: _, [], _, h => by simp [bytesLe] at h
  | x :: xs, y :: ys, z :: zs, h1, h2 => by
    rw [bytesLe_cons_iff] at h1 h2 ⊢
    rcases h1 with h1 | ⟨rfl, h1⟩
    · rcases h2 with h2 | ⟨rfl, h2⟩
      · exact Or.inl (h1.trans h2)
      · exact Or.inl h1
    · rcases h2 with h2 | ⟨rfl, h2⟩
      · exact Or.inl h2
      · exact Or.inr ⟨rfl, bytesLe_trans xs ys zs h1 h2⟩

theorem bytesLe_antisymm : ∀ a b : List Nat,
    bytesLe a b = true → bytesLe b a = true → a = b
  | [], [], _, _ => rfl
  | [], _ :: _, _, h => by simp [bytesLe] at h
  | _ :: _, [], h, _ => by simp [bytesLe] at h
  | x :: xs, y :: ys, h1, h2 => by
    rw [bytesLe_cons_iff] at h1 h2
    rcases h1 with h1 | ⟨rfl, h1⟩
    · rcases h2 with h2 | ⟨h2e, h2⟩ <;> omega
    · rcases h2 with h2 | ⟨h2e, h2⟩
      · omega
      · exact congrArg (x :: ·) (bytesLe_antisymm xs ys h1 h2)

/-- Every `Char` codes a scalar value below `0x110000`. -/
theorem char_toNat_lt (c : Char) : c.toNat < 1114112 := by
  rcases c.valid with h | ⟨h1, h2⟩
  · exact Nat.lt_trans h (by norm_num)
  · exact h2

theorem utf8EncodeChar_ne_nil (n : Nat) : utf8EncodeChar n ≠ [] := by
  unfold utf8EncodeChar
  split_ifs <;> simp

theorem headD_append_ne (l r : List Nat) (h : l ≠ []) : (l ++ r).headD 0 = l.headD 0 := by
  rcases l with _ | ⟨x, xs⟩
  · exact absurd rfl h
  · rfl

theorem utf8EncodeChar_head_length (m n : Nat) (hm : m < 1114112) (hn : n < 1114112)
    (h : (utf8EncodeChar m).headD 0 = (utf8EncodeChar n).headD 0) :
    (utf8EncodeChar m).length = (utf8EncodeChar n).length := by
  unfold utf8EncodeChar at h ⊢
  split_ifs at h ⊢ <;> simp_all <;> omega

theorem utf8EncodeChar_injective (m n : Nat) (hm : m < 1114112) (hn : n < 1114112)
    (h : utf8EncodeChar m = utf8EncodeChar n) : m = n := by
  unfold utf8EncodeChar at h
  split_ifs at h <;> simp_all <;> omega

theorem utf8EncodeChar_append_inj (m n : Nat) (hm : m < 1114112) (hn : n < 1114112)
    (r1 r2 : List Nat) (h : utf8EncodeChar m ++ r1 = utf8EncodeChar n ++ r2) :
    m = n ∧ r1 = r2 := by
  have hhead : (utf8EncodeChar m).headD 0 = (utf8EncodeChar n).headD 0 := by
    rw [← headD_append_ne _ r1 (utf8EncodeChar_ne_nil m),
      ← headD_append_ne _ r2 (utf8EncodeChar_ne_nil n), h]
  obtain ⟨henc, hrest⟩ :=
    List.append_inj h (utf8EncodeChar_head_length m n hm hn hhead)
  exact ⟨utf8EncodeChar_injective m n hm hn henc, hrest⟩

theorem utf8EncodeList_injective : ∀ s t : List Char,
    s.flatMap (fun c => utf8EncodeChar c.toNat) = t.flatMap (fun c => utf8EncodeChar c.toNat) →
      s = t
  | [], [], _ => rfl
  | [], c :: t, h => by
    rw [List.flatMap_nil, List.flatMap_cons] at h
    have h2 := (List.append_eq_nil).mp h.symm
    exact absurd h2.1 (utf8EncodeChar_ne_nil _)
  | c :: s, [], h => by
    rw [List.flatMap_nil, List.flatMap_cons] at h
    have h2 := (List.append_eq_nil).mp h
    exact absurd h2.1 (utf8EncodeChar_ne_nil _)
  | c :: s, d :: t, h => by
    rw [List.flatMap_cons, List.flatMap_cons] at h
    obtain ⟨hcd, hrest⟩ :=
      utf8EncodeChar_append_inj _ _ (char_toNat_lt c) (char_toNat_lt d) _ _ h
    obtain rfl : c = d := Char.ext (UInt32.ext hcd)
    exact congrArg (c :: ·) (utf8EncodeList_injective s t hrest)

/-- UTF-8 encoding is injective on strings, so byte-wise lexicographic
comparison is antisymmetric on strings. -/
theorem utf8Encode_injective (s t : String) (h : utf8Encode s = utf8Encode t) : s = t := by
  cases s
  cases t
  exact congrArg String.mk (utf8EncodeList_injective _ _ h)

/-- C1: for every non-empty digest list, `compute_merkle_root` returns the
unkeyed hash of the bytes of the concatenation, in order, of any
byte-lexicographically sorted permutation of the input. -/
theorem merkle_root_is_hash_of_sorted_concat (hashes sortedHashes : List String)
    (hne : hashes ≠ []) (hperm : sortedHashes.Perm hashes)
    (hsorted : List.Sorted strLe sortedHashes) :
    compute_merkle_root hashes = .ok (hash_blake3 (utf8Encode (joinAll sortedHashes))) := by
  letI : IsTotal String strLe := ⟨fun a b => bytesLe_total _ _⟩
  letI : IsTrans String strLe := ⟨fun a b c => bytesLe_trans _ _ _⟩
  letI : IsAntisymm String strLe :=
    ⟨fun a b h1 h2 => utf8Encode_injective _ _ (bytesLe_antisymm _ _ h1 h2)⟩
  have hsorteq : List.insertionSort strLe hashes = sortedHashes :=
    List.eq_of_perm_of_sorted ((List.perm_insertionSort strLe hashes).trans hperm.symm)
      (List.sorted_insertionSort strLe hashes) hsorted
  unfold compute_merkle_root
  rw [if_neg (by simpa [List.isEmpty_iff] using hne), hsorteq]

/-- Witness for C1 on the concrete input `["b", "a"]` with sorted
permutation `["a", "b"]`. -/
theorem merkle_root_is_hash_of_sorted_concat_witness :
    (["b", "a"] : List String) ≠ [] ∧ (["a", "b"] : List String).Perm ["b", "a"] ∧
      List.Sorted strLe ["a", "b"] ∧
      compute_merkle_root ["b", "a"] = .ok (hash_blake3 (utf8Encode (joinAll ["a", "b"]))) :=
  ⟨by decide, by decide, by decide,
    merkle_root_is_hash_of_sorted_concat ["b", "a"] ["a", "b"] (by decide) (by decide)
      (by decide)⟩

/-- C2: `compute_merkle_root` is order-independent: permuting the input
list leaves the result (error or root digest) unchanged. -/
theorem merkle_root_order_independent (l1 l2 : List String) (h : l1.Perm l2) :
    compute_merkle_root l1 = compute_merkle_root l2 := by
  letI : IsTotal String strLe := ⟨fun a b => bytesLe_total _ _⟩
  letI : IsTrans String strLe := ⟨fun a b c => bytesLe_trans _ _ _⟩
  letI : IsAntisymm String strLe :=
    ⟨fun a b h1 h2 => utf8Encode_injective _ _ (bytesLe_antisymm _ _ h1 h2)⟩
  rcases eq_or_ne l1 [] with rfl | hne
  · obtain rfl : l2 = [] := (h.symm).eq_nil
    rfl
  · have hne2 : l2 ≠ [] := fun h2 => hne ((h.trans (h2 ▸ List.Perm.refl _)).eq_nil)
    have hsorteq : List.insertionSort strLe l1 = List.insertionSort strLe l2 :=
      List.eq_of_perm_of_sorted
        ((List.perm_insertionSort strLe l1).trans
          (h.trans (List.perm_insertionSort strLe l2).symm))
        (List.sorted_insertionSort strLe l1) (List.sorted_insertionSort strLe l2)
    unfold compute_merkle_root
    rw [if_neg (by simpa [List.isEmpty_iff] using hne),
      if_neg (by simpa [List.isEmpty_iff] using hne2), hsorteq]

/-- Witness for C2 on the permuted pair `["a", "b"]` / `["b", "a"]`. -/
theorem merkle_root_order_independent_witness :
    (["a", "b"] : List String).Perm ["b", "a"] ∧
      compute_merkle_root ["a", "b"] = compute_merkle_root ["b", "a"] :=
  ⟨by decide, merkle_root_order_independent ["a", "b"] ["b", "a"] (by decide)⟩

/-! ### The Segmenter (claim C8) -/

theorem segGo_flatten (rest : List Char) : ∀ (b : Char) (ext : List Char),
    (segGo b ext rest).flatten = b :: (ext.reverse ++ rest) := by
  induction rest with
  | nil => intro b ext; simp [segGo]
  | cons c cs ih =>
    intro b ext
    simp only [segGo]
    split
    · rw [ih]
      simp
    · simp only [List.flatten_cons]
      rw [ih]
      simp

theorem segGo_shape (rest : List Char) : ∀ (b : Char) (ext : List Char),
    (∀ x ∈ ext, isExtendChar x = true) →
    ∃ e1 others, segGo b ext rest = (b :: e1) :: others ∧
      (∀ x ∈ e1, isExtendChar x = true) ∧
      (∀ g ∈ others, ∃ c cs, g = c :: cs ∧ isExtendChar c = false ∧
        ∀ x ∈ cs, isExtendChar x = true) := by
  induction rest with
  | nil =>
    intro b ext hext
    refine ⟨ext.reverse, [], by simp [segGo], ?_, by simp⟩
    intro x hx
    exact hext x (List.mem_reverse.mp hx)
  | cons c cs ih =>
    intro b ext hext
    simp only [segGo]
    split
    · rename_i hc
      exact ih b (c :: ext) (by
        intro x hx
        rcases List.mem_cons.mp hx with rfl | hx
        · exact hc
        · exact hext x hx)
    · rename_i hc
      obtain ⟨e1, others, heq, he1, hothers⟩ := ih c [] (by simp)
      refine ⟨ext.reverse, (c :: e1) :: others, by rw [heq], ?_, ?_⟩
      · intro x hx
        exact hext x (List.mem_reverse.mp hx)
      · intro g hg
        rcases List.mem_cons.mp hg with rfl | hg
        · exact ⟨c, e1, rfl, by simpa using hc, he1⟩
        · exact hothers g hg

theorem graphemeSplit_flatten (l : List Char) : (graphemeSplit l).flatten = l := by
  rcases l with _ | ⟨c, rest⟩
  · rfl
  · simp only [graphemeSplit]
    rw [segGo_flatten]
    rfl

theorem foldl_append_mk (gs : List (List Char)) : ∀ acc : List Char,
    List.foldl (· ++ ·) (⟨acc⟩ : String) (gs.map (fun g => (⟨g⟩ : String))) =
      ⟨acc ++ gs.flatten⟩ := by
  induction gs with
  | nil => intro acc; simp
  | cons g gs ih =>
    intro acc
    simp only [List.map_cons, List.foldl_cons]
    have hstep : (⟨acc⟩ : String) ++ ⟨g⟩ = ⟨acc ++ g⟩ := rfl
    rw [hstep, ih]
    simp

/-- C8: `segment_graphemes` returns the clusters in original order, their
concatenation reconstructs the input exactly, every character after the
first inside a cluster is a grapheme extender (so a base plus its
combining marks or an emoji plus its modifier is never split), and every
non-initial cluster begins at a non-extender (so clusters are maximal). -/
theorem segment_graphemes_spec (t : String) :
    joinAll (segment_graphemes t) = t ∧
      (∀ g ∈ segment_graphemes t, g ≠ "" ∧ ∀ c ∈ g.data.tail, isExtendChar c = true) ∧
      (∀ g ∈ (segment_graphemes t).tail,
        ∃ c, g.data.head? = some c ∧ isExtendChar c = false) := by
  obtain ⟨data⟩ := t
  refine ⟨?_, ?_, ?_⟩
  · show joinAll ((graphemeSplit data).map _) = _
    have h1 := foldl_append_mk (graphemeSplit data) []
    show List.foldl (· ++ ·) (⟨[]⟩ : String) _ = _
    rw [h1, List.nil_append, graphemeSplit_flatten]
  · rcases data with _ | ⟨c0, rest⟩
    · intro g hg
      simp [segment_graphemes, graphemeSplit] at hg
    · obtain ⟨e1, others, heq, he1, hothers⟩ := segGo_shape rest c0 [] (by simp)
      intro g hg
      simp only [segment_graphemes, graphemeSplit, heq, List.map_cons, List.mem_cons,
        List.mem_map] at hg
      rcases hg with rfl | ⟨gl, hgl, rfl⟩
      · constructor
        · simp [String.ext_iff]
        · intro c hc
          exact he1 c hc
      · obtain ⟨c, cs, rfl, hhead, htail⟩ := hothers gl hgl
        constructor
        · simp [String.ext_iff]
        · intro x hx
          exact htail x hx
  · rcases data with _ | ⟨c0, rest⟩
    · intro g hg
      simp [segment_graphemes, graphemeSplit] at hg
    · obtain ⟨e1, others, heq, he1, hothers⟩ := segGo_shape rest c0 [] (by simp)
      intro g hg
      simp only [segment_graphemes, graphemeSplit, heq, List.map_cons, List.tail_cons,
        List.mem_map] at hg
      obtain ⟨gl, hgl, rfl⟩ := hg
      obtain ⟨c, cs, rfl, hhead, _⟩ := hothers gl hgl
      exact ⟨c, rfl, hhead⟩

/-- Witness for C8: a text holding an emoji plus skin-tone modifier
reassembles exactly, and the two-codepoint emoji sequence is one
non-empty cluster. -/
theorem segment_graphemes_spec_witness :
    joinAll (segment_graphemes "a👍🏽") = "a👍🏽" ∧ ("👍🏽" : String) ≠ "" :=
  ⟨(segment_graphemes_spec "a👍🏽").1,
    ((segment_graphemes_spec "a👍🏽").2.1 "👍🏽" (by decide)).1⟩

/-! ### The Normalizer: decomposition and canonical ordering (claim C7) -/

theorem decChar_decFree (d : UniData) (gd : GoodData d) (c : Char) :
    DecFree d (decChar d c) := by
  intro x hx
  unfold decChar at hx
  rcases hdec : d.dec c with _ | ⟨a, b⟩
  · rw [hdec] at hx
    simp only [List.mem_singleton] at hx
    subst hx
    exact hdec
  · rw [hdec] at hx
    obtain ⟨ha, hb⟩ := gd.dec_closed c a b hdec
    simp only [List.mem_cons, List.not_mem_nil, or_false] at hx
    rcases hx with rfl | rfl
    · exact ha
    · exact hb

theorem decompose_decFree (d : UniData) (gd : GoodData d) (s : List Char) :
    DecFree d (decompose d s) := by
  intro x hx
  unfold decompose at hx
  simp only [List.mem_flatMap] at hx
  obtain ⟨c, _, hx⟩ := hx
  exact decChar_decFree d gd c x hx

theorem decompose_id_of_decFree (d : UniData) (s : List Char) (h : DecFree d s) :
    decompose d s = s := by
  induction s with
  | nil => rfl
  | cons c rest ih =>
    have hc : d.dec c = none := h c (by simp)
    unfold decompose
    simp only [List.flatMap_cons]
    rw [show decChar d c = [c] by unfold decChar; rw [hc]]
    have hrest := ih (fun x hx => h x (by simp [hx]))
    unfold decompose at hrest
    rw [hrest]
    rfl

theorem reorderGo_eq_foldl (d : UniData) :
    ∀ (l racc : List Char), reorderGo d racc l = (List.foldl (stepR d) racc l).reverse := by
  intro l
  induction l with
  | nil => intro racc; rfl
  | cons c rest ih =>
    intro racc
    by_cases h : d.ccc c = 0
    · simp only [reorderGo, if_pos h, List.foldl_cons, stepR]
      exact ih _
    · simp only [reorderGo, if_neg h, List.foldl_cons, stepR]
      exact ih _

theorem insMark_perm (d : UniData) (c : Char) :
    ∀ racc, (insMark d c racc).Perm (c :: racc) := by
  intro racc
  induction racc with
  | nil => simp [insMark]
  | cons x xs ih =>
    simp only [insMark]
    split
    · exact (ih.cons x).trans (List.Perm.swap c x xs)
    · exact List.Perm.refl _

theorem stepR_perm (d : UniData) (racc : List Char) (c : Char) :
    (stepR d racc c).Perm (c :: racc) := by
  unfold stepR
  split
  · exact List.Perm.refl _
  · exact insMark_perm d c racc

theorem foldl_stepR_perm (d : UniData) :
    ∀ (l racc : List Char), (List.foldl (stepR d) racc l).Perm (l ++ racc) := by
  intro l
  induction l with
  | nil => intro racc; simp
  | cons c rest ih =>
    intro racc
    simp only [List.foldl_cons, List.cons_append]
    exact (ih _).trans
      ((List.Perm.append_left rest (stepR_perm d racc c)).trans List.perm_middle)

theorem reorder_perm (d : UniData) (l : List Char) : (reorder d l).Perm l := by
  unfold reorder
  rw [reorderGo_eq_foldl]
  have h := foldl_stepR_perm d l []
  rw [List.append_nil] at h
  exact (List.reverse_perm _).trans h

theorem insMark_head (d : UniData) (c : Char) :
    ∀ racc, (insMark d c racc).head? = some c ∨
      ((insMark d c racc).head? = racc.head? ∧
        ∃ x xs, racc = x :: xs ∧ d.ccc c < d.ccc x) := by
  intro racc
  rcases racc with _ | ⟨x, xs⟩
  · left; rfl
  · simp only [insMark]
    split
    · right
      exact ⟨rfl, x, xs, rfl, by assumption⟩
    · left; rfl

theorem insMark_revOK (d : UniData) (c : Char) (hc : d.ccc c ≠ 0) :
    ∀ racc, List.Chain' (fun x y => d.ccc x = 0 ∨ d.ccc y ≤ d.ccc x) racc →
      List.Chain' (fun x y => d.ccc x = 0 ∨ d.ccc y ≤ d.ccc x) (insMark d c racc) := by
  intro racc
  induction racc with
  | nil => intro _; simp [insMark]
  | cons x xs ih =>
    intro hch
    simp only [insMark]
    split
    · rename_i hlt
      have hins := ih hch.tail
      rw [List.chain'_cons']
      refine ⟨?_, hins⟩
      intro y hy
      rcases insMark_head d c xs with hh | ⟨hh, x', xs', rfl, hx'⟩
      · rw [hh] at hy
        obtain rfl : c = y := by simpa using hy
        exact Or.inr (Nat.le_of_lt hlt)
      · rw [hh] at hy
        exact (List.chain'_cons'.mp hch).1 y hy
    · rename_i hge
      rw [List.chain'_cons']
      refine ⟨?_, hch⟩
      intro y hy
      obtain rfl : x = y := by simpa using hy
      exact Or.inr (by omega)

theorem foldl_stepR_revOK (d : UniData) :
    ∀ (l racc : List Char),
      List.Chain' (fun x y => d.ccc x = 0 ∨ d.ccc y ≤ d.ccc x) racc →
      List.Chain' (fun x y => d.ccc x = 0 ∨ d.ccc y ≤ d.ccc x) (List.foldl (stepR d) racc l) := by
  intro l
  induction l with
  | nil => intro racc h; exact h
  | cons c rest ih =>
    intro racc h
    simp only [List.foldl_cons]
    apply ih
    unfold stepR
    split
    · rename_i hc0
      rw [List.chain'_cons']
      exact ⟨fun y _ => Or.inl hc0, h⟩
    · rename_i hc0
      exact insMark_revOK d c hc0 racc h

theorem reorder_ordOK (d : UniData) (l : List Char) : OrdOK d (reorder d l) := by
  unfold reorder OrdOK
  rw [reorderGo_eq_foldl, List.chain'_reverse]
  exact foldl_stepR_revOK d l [] (by simp)

theorem foldl_stepR_id (d : UniData) :
    ∀ (l racc : List Char), OrdOK d l →
      (∀ x c, racc.head? = some x → l.head? = some c → (d.ccc c = 0 ∨ d.ccc x ≤ d.ccc c)) →
      List.foldl (stepR d) racc l = l.reverse ++ racc := by
  intro l
  induction l with
  | nil => intro racc _ _; simp
  | cons c rest ih =>
    intro racc hord hguard
    have hstep : stepR d racc c = c :: racc := by
      unfold stepR
      split
      · rfl
      · rename_i hc
        rcases racc with _ | ⟨x, xs⟩
        · rfl
        · simp only [insMark]
          rw [if_neg]
          have := hguard x c rfl rfl
          omega
    have hg : ∀ x c', (c :: racc).head? = some x → rest.head? = some c' →
        (d.ccc c' = 0 ∨ d.ccc x ≤ d.ccc c') := by
      intro x c' hx hc'
      obtain rfl : c = x := by simpa using hx
      exact (List.chain'_cons'.mp hord).1 c' hc'
    simp only [List.foldl_cons]
    rw [hstep, ih (c :: racc) hord.tail hg]
    simp

theorem reorder_id_of_ordOK (d : UniData) (l : List Char) (h : OrdOK d l) :
    reorder d l = l := by
  unfold reorder
  rw [reorderGo_eq_foldl, foldl_stepR_id d l [] h (by intro x c hx _; simp at hx)]
  simp

theorem reorder_idem (d : UniData) (l : List Char) :
    reorder d (reorder d l) = reorder d l :=
  reorder_id_of_ordOK d _ (reorder_ordOK d l)

theorem nfdL_idem (d : UniData) (gd : GoodData d) (s : List Char) :
    nfdL d (nfdL d s) = nfdL d s := by
  unfold nfdL
  have h1 : DecFree d (reorder d (decompose d s)) := fun c hc =>
    decompose_decFree d gd s c ((reorder_perm d _).mem_iff.mp hc)
  rw [decompose_id_of_decFree d _ h1, reorder_idem]

/-! ### The Normalizer: composition pass bookkeeping (claim C7) -/

theorem insMark_stop (d : UniData) (c : Char) (racc : List Char)
    (h : ∀ x, racc.head? = some x → ¬ d.ccc c < d.ccc x) :
    insMark d c racc = c :: racc := by
  rcases racc with _ | ⟨x, xs⟩
  · rfl
  · simp only [insMark]
    rw [if_neg (h x rfl)]

theorem insMark_past (d : UniData) (c x : Char) (xs : List Char)
    (h : d.ccc c < d.ccc x) : insMark d c (x :: xs) = x :: insMark d c xs := by
  simp only [insMark]
  rw [if_pos h]

theorem insMark_stop_head (d : UniData) (c x : Char) (xs : List Char)
    (h : ¬ d.ccc c < d.ccc x) : insMark d c (x :: xs) = c :: x :: xs := by
  simp only [insMark]
  rw [if_neg h]

theorem insMark_barrier (d : UniData) (c s : Char) (hs : d.ccc s = 0) :
    ∀ (S R : List Char), insMark d c (S ++ s :: R) = insMark d c (S ++ [s]) ++ R := by
  intro S
  induction S with
  | nil =>
    intro R
    have h1 : insMark d c (s :: R) = c :: s :: R := insMark_stop_head d c s R (by omega)
    have h2 : insMark d c [s] = [c, s] := insMark_stop_head d c s [] (by omega)
    rw [List.nil_append, List.nil_append, h1, h2]
    rfl
  | cons x S' ih =>
    intro R
    by_cases h : d.ccc c < d.ccc x
    · rw [List.cons_append, insMark_past d c x _ h, List.cons_append,
        insMark_past d c x _ h, ih, List.cons_append]
    · rw [List.cons_append, insMark_stop_head d c x _ h,
        List.cons_append, insMark_stop_head d c x _ h]
      simp
  
theorem insMark_keeps_last (d : UniData) (c s : Char) (hs : d.ccc s = 0) :
    ∀ S : List Char, ∃ T : List Char, insMark d c (S ++ [s]) = T ++ [s] := by
  intro S
  induction S with
  | nil =>
    refine ⟨[c], ?_⟩
    rw [List.nil_append, insMark_stop_head d c s [] (by omega)]
    rfl
  | cons x S' ih =>
    by_cases h : d.ccc c < d.ccc x
    · obtain ⟨T, hT⟩ := ih
      refine ⟨x :: T, ?_⟩
      rw [List.cons_append, insMark_past d c x _ h, hT]
      rfl
    · refine ⟨c :: x :: S', ?_⟩
      rw [List.cons_append, insMark_stop_head d c x _ h]
      rfl

theorem foldl_stepR_barrier (d : UniData) (s : Char) (hs : d.ccc s = 0) :
    ∀ (B S R : List Char),
      List.foldl (stepR d) (S ++ s :: R) B = List.foldl (stepR d) (S ++ [s]) B ++ R := by
  intro B
  induction B with
  | nil => intro S R; simp
  | cons b B' ih =>
    intro S R
    simp only [List.foldl_cons]
    by_cases hb : d.ccc b = 0
    · have h1 : stepR d (S ++ s :: R) b = (b :: S) ++ s :: R := by simp [stepR, hb]
      have h2 : stepR d (S ++ [s]) b = (b :: S) ++ [s] := by simp [stepR, hb]
      rw [h1, h2, ih]
    · have h1 : stepR d (S ++ s :: R) b = insMark d b (S ++ s :: R) := by simp [stepR, hb]
      have h2 : stepR d (S ++ [s]) b = insMark d b (S ++ [s]) := by simp [stepR, hb]
      rw [h1, h2, insMark_barrier d b s hs]
      obtain ⟨T, hT⟩ := insMark_keeps_last d b s hs S
      rw [hT, List.append_assoc, List.singleton_append, ih]

theorem reorder_append_starter (d : UniData) (A B : List Char) (s : Char)
    (hs : d.ccc s = 0) :
    reorder d (A ++ s :: B) = reorder d A ++ reorder d (s :: B) := by
  unfold reorder
  rw [reorderGo_eq_foldl, reorderGo_eq_foldl, reorderGo_eq_foldl, List.foldl_append]
  simp only [List.foldl_cons]
  have h1 : stepR d (List.foldl (stepR d) [] A) s = s :: List.foldl (stepR d) [] A := by
    simp [stepR, hs]
  have h2 : stepR d [] s = [s] := by simp [stepR, hs]
  rw [h1, h2]
  have h3 := foldl_stepR_barrier d s hs B [] (List.foldl (stepR d) [] A)
  simp only [List.nil_append] at h3
  rw [h3]
  simp

theorem composeGo_racc (d : UniData) :
    ∀ (rest : List Char) (st : Option Char) (rm racc : List Char),
      composeGo d st rm racc rest = racc.reverse ++ composeGo d st rm [] rest := by
  intro rest
  induction rest with
  | nil =>
    intro st rm racc
    rcases st with _ | L <;> simp [composeGo, List.reverse_append]
  | cons c cs ih =>
    intro st rm racc
    rcases st with _ | L
    · simp only [composeGo]
      split
      · rw [ih (some c) [] (rm ++ racc), ih (some c) [] (rm ++ [])]
        simp [List.reverse_append]
      · exact ih none (c :: rm) racc
    · rcases hcomp : d.comp L c with _ | P <;> simp only [composeGo, hcomp]
      · split
        · rw [ih (some c) [] (rm ++ L :: racc), ih (some c) [] (rm ++ L :: [])]
          simp [List.reverse_append]
        · exact ih (some L) (c :: rm) racc
      · split
        · exact ih (some P) rm racc
        · split
          · rw [ih (some c) [] (rm ++ L :: racc), ih (some c) [] (rm ++ L :: [])]
            simp [List.reverse_append]
          · exact ih (some L) (c :: rm) racc

theorem composeL_cons_starter (d : UniData) (s : Char) (hs : d.ccc s = 0) (l : List Char) :
    composeL d (s :: l) = composeGo d (some s) [] [] l := by
  unfold composeL
  simp only [composeGo, if_pos hs]
  rfl

theorem composeGo_base (d : UniData) (gd : GoodData d) (S : Char) (kept : List Char)
    (y3 : List Char) (hy3 : y3 = [] ∨ ∃ s y', y3 = s :: y' ∧ d.ccc s = 0) :
    composeGo d (some S) kept [] y3 = (S :: kept.reverse) ++ composeL d y3 := by
  rcases hy3 with rfl | ⟨s, y', rfl, hs⟩
  · simp [composeGo, composeL]
  · have hcomp : d.comp S s = none := by
      rcases h : d.comp S s with _ | P
      · rfl
      · exact absurd hs (gd.comp_mark S s P h)
    simp only [composeGo, hcomp, if_pos hs]
    rw [composeGo_racc, composeL_cons_starter d s hs y']
    simp [List.reverse_append]

theorem composeGo_noComp (d : UniData) (gd : GoodData d) (P : Char)
    (hP : ∀ x, d.comp P x = none) :
    ∀ (ms kept y3 : List Char), (∀ m ∈ ms, d.ccc m ≠ 0) →
      (y3 = [] ∨ ∃ s y', y3 = s :: y' ∧ d.ccc s = 0) →
      composeGo d (some P) kept [] (ms ++ y3) =
        (P :: (kept.reverse ++ ms)) ++ composeL d y3 := by
  intro ms
  induction ms with
  | nil =>
    intro kept y3 _ hy3
    simpa using composeGo_base d gd P kept y3 hy3
  | cons m ms' ih =>
    intro kept y3 hms hy3
    have hm : d.ccc m ≠ 0 := hms m (by simp)
    simp only [List.cons_append, composeGo, hP m, if_neg hm, List.append_eq]
    rw [ih (m :: kept) y3 (fun x hx => hms x (by simp [hx])) hy3]
    simp

theorem composeGo_none_done (d : UniData) (rm : List Char) :
    composeGo d none rm [] [] = rm.reverse := by
  simp [composeGo]

theorem composeGo_none_starter (d : UniData) (rm : List Char) (s : Char) (y' : List Char)
    (hs : d.ccc s = 0) :
    composeGo d none rm [] (s :: y') = rm.reverse ++ composeGo d (some s) [] [] y' := by
  simp only [composeGo, if_pos hs]
  rw [composeGo_racc]
  simp

theorem composeGo_none_marks (d : UniData) :
    ∀ (ms rm y2 : List Char), (∀ m ∈ ms, d.ccc m ≠ 0) →
      composeGo d none rm [] (ms ++ y2) = composeGo d none (ms.reverse ++ rm) [] y2 := by
  intro ms
  induction ms with
  | nil => intro rm y2 _; simp
  | cons m ms' ih =>
    intro rm y2 hms
    have hm : d.ccc m ≠ 0 := hms m (by simp)
    simp only [List.cons_append, composeGo, if_neg hm, List.append_eq]
    rw [ih (m :: rm) y2 (fun x hx => hms x (by simp [hx]))]
    simp

theorem foldl_stepR_ge (d : UniData) :
    ∀ (ws acc : List Char),
      (∀ x w, acc.head? = some x → w ∈ ws → d.ccc x ≤ d.ccc w) →
      List.Pairwise (fun a b => d.ccc a ≤ d.ccc b) ws →
      (∀ w ∈ ws, d.ccc w ≠ 0) →
      List.foldl (stepR d) acc ws = ws.reverse ++ acc := by
  intro ws
  induction ws with
  | nil => intro acc _ _ _; simp
  | cons w ws' ih =>
    intro acc hhead hpw hnz
    have hw : d.ccc w ≠ 0 := hnz w (by simp)
    have hstep : stepR d acc w = w :: acc := by
      unfold stepR
      rw [if_neg hw]
      apply insMark_stop
      intro x hx
      have := hhead x w hx (by simp)
      omega
    simp only [List.foldl_cons, hstep]
    rw [ih (w :: acc) ?hd (hpw.tail) (fun x hx => hnz x (by simp [hx]))]
    · simp
    case hd =>
      intro x w' hx hw'
      obtain rfl : w = x := by simpa using hx
      exact (List.pairwise_cons.mp hpw).1 w' hw'

theorem foldl_stepR_below (d : UniData) (m L : Char) (hL : d.ccc L = 0)
    (hm : d.ccc m ≠ 0) :
    ∀ (K Kdone : List Char),
      (∀ k ∈ K, d.ccc k ≠ 0 ∧ d.ccc k < d.ccc m) →
      List.Pairwise (fun a b => d.ccc a ≤ d.ccc b) K →
      (∀ x k, Kdone.head? = some x → k ∈ K → d.ccc x ≤ d.ccc k) →
      List.foldl (stepR d) (m :: (Kdone ++ [L])) K = m :: ((K.reverse ++ Kdone) ++ [L]) := by
  intro K
  induction K with
  | nil => intro Kdone _ _ _; simp
  | cons k K' ih =>
    intro Kdone hK hpw hhead
    have hk0 : d.ccc k ≠ 0 := (hK k (by simp)).1
    have hkm : d.ccc k < d.ccc m := (hK k (by simp)).2
    have hstep : stepR d (m :: (Kdone ++ [L])) k = m :: k :: (Kdone ++ [L]) := by
      unfold stepR
      rw [if_neg hk0, insMark_past d k m _ hkm]
      congr 1
      apply insMark_stop
      intro x hx
      rcases Kdone with _ | ⟨x0, xs0⟩
      · obtain rfl : L = x := by simpa using hx
        omega
      · obtain rfl : x0 = x := by simpa using hx
        have := hhead x0 k rfl (by simp)
        omega
    simp only [List.foldl_cons, hstep]
    have := ih (k :: Kdone) (fun x hx => hK x (by simp [hx])) hpw.tail ?hd
    · rw [show m :: k :: (Kdone ++ [L]) = m :: ((k :: Kdone) ++ [L]) from rfl, this]
      simp
    case hd =>
      intro x k' hx hk'
      obtain rfl : k = x := by simpa using hx
      exact (List.pairwise_cons.mp hpw).1 k' hk'

theorem reorder_group (d : UniData) (L m : Char) (K ms' : List Char)
    (hL : d.ccc L = 0) (hm : d.ccc m ≠ 0)
    (hK : ∀ k ∈ K, d.ccc k ≠ 0 ∧ d.ccc k < d.ccc m)
    (hKp : List.Pairwise (fun a b => d.ccc a ≤ d.ccc b) K)
    (hms : ∀ w ∈ ms', d.ccc w ≠ 0)
    (hmw : ∀ w ∈ ms', d.ccc m ≤ d.ccc w)
    (hmsp : List.Pairwise (fun a b => d.ccc a ≤ d.ccc b) ms') :
    reorder d (L :: m :: (K ++ ms')) = L :: (K ++ (m :: ms')) := by
  unfold reorder
  rw [reorderGo_eq_foldl]
  simp only [List.foldl_cons]
  have h1 : stepR d [] L = [L] := by simp [stepR, hL]
  have h2 : stepR d [L] m = m :: [L] := by
    unfold stepR
    rw [if_neg hm]
    apply insMark_stop
    intro x hx
    obtain rfl : L = x := by simpa using hx
    omega
  rw [h1, h2, List.foldl_append]
  rw [show (m :: [L] : List Char) = m :: ([] ++ [L]) from rfl]
  rw [foldl_stepR_below d m L hL hm K [] hK hKp (by intro x k hx _; simp at hx)]
  rw [foldl_stepR_ge d ms' _ ?hd hmsp hms]
  · simp
  case hd =>
    intro x w hx hw
    obtain rfl : m = x := by simpa using hx
    exact hmw w hw

theorem composeGo_group (d : UniData) (gd : GoodData d) :
    ∀ (ms kept : List Char) (L : Char) (y3 : List Char),
      d.dec L = none → d.ccc L = 0 →
      (∀ m ∈ ms, d.ccc m ≠ 0 ∧ d.dec m = none) →
      (∀ k ∈ kept, d.ccc k ≠ 0 ∧ d.dec k = none) →
      List.Pairwise (fun a b => d.ccc a ≤ d.ccc b) (kept.reverse ++ ms) →
      (y3 = [] ∨ ∃ s y', y3 = s :: y' ∧ d.ccc s = 0) →
      ∃ GO, composeGo d (some L) kept [] (ms ++ y3) = GO ++ composeL d y3 ∧
        reorder d (decompose d GO) = L :: (kept.reverse ++ ms) ∧
        ∃ S tl, GO = S :: tl ∧ d.ccc S = 0 := by
  intro ms
  induction ms with
  | nil =>
    intro kept L y3 hLdec hL hms hkept hpw hy3
    refine ⟨L :: kept.reverse, by simpa using composeGo_base d gd L kept y3 hy3, ?_,
      L, kept.reverse, rfl, hL⟩
    have hdf : DecFree d (L :: kept.reverse) := by
      intro c hc
      rcases List.mem_cons.mp hc with rfl | hc
      · exact hLdec
      · exact (hkept c (List.mem_reverse.mp hc)).2
    rw [decompose_id_of_decFree d _ hdf, reorder_id_of_ordOK]
    · simp
    · rw [OrdOK, List.chain'_cons']
      constructor
      · intro y _
        right
        omega
      · have hp : List.Pairwise (fun a b => d.ccc a ≤ d.ccc b) kept.reverse := by
          simpa using hpw
        exact hp.chain'.imp (fun a b h => Or.inr h)
  | cons m ms' ih =>
    intro kept L y3 hLdec hL hms hkept hpw hy3
    have hm0 : d.ccc m ≠ 0 := (hms m (by simp)).1
    rcases hcomp : d.comp L m with _ | P
    · -- no composition for this mark: it is kept
      have heq : composeGo d (some L) kept [] ((m :: ms') ++ y3) =
          composeGo d (some L) (m :: kept) [] (ms' ++ y3) := by
        simp only [List.cons_append, composeGo, hcomp, if_neg hm0, List.append_eq]
      obtain ⟨GO, h1, h2, h3⟩ := ih (m :: kept) L y3 hLdec hL
        (fun x hx => hms x (by simp [hx]))
        (by
          intro k hk
          rcases List.mem_cons.mp hk with h | h
          · subst h
            exact hms k (by simp)
          · exact hkept k h)
        (by
          have hsame : (m :: kept).reverse ++ ms' = kept.reverse ++ (m :: ms') := by simp
          rw [hsame]
          exact hpw)
        hy3
      refine ⟨GO, ?_, ?_, h3⟩
      · rw [heq, h1]
      · rw [h2]
        simp
    · -- the pair (L, m) composes
      have hPdec : d.dec P = some (L, m) := gd.comp_dec L m P hcomp
      have hPccc : d.ccc P = 0 := gd.comp_starter L m P hcomp
      have hPno : ∀ x, d.comp P x = none := by
        intro x
        rcases h : d.comp P x with _ | q
        · rfl
        · have hdecnone := gd.comp_left P x q h
          rw [hdecnone] at hPdec
          exact absurd hPdec (by simp)
      have hdecP : decChar d P = [L, m] := by
        unfold decChar
        rw [hPdec]
      have hms'f : ∀ x ∈ ms', d.ccc x ≠ 0 := fun x hx => (hms x (by simp [hx])).1
      have hms'dec : DecFree d ms' := fun x hx => (hms x (by simp [hx])).2
      have hdecompose_ms' : decompose d ms' = ms' := decompose_id_of_decFree d ms' hms'dec
      rcases kept with _ | ⟨k0, kept'⟩
      · -- no kept marks: composition is never blocked
        have heq : composeGo d (some L) [] [] ((m :: ms') ++ y3) =
            composeGo d (some P) [] [] (ms' ++ y3) := by
          simp only [List.cons_append, composeGo, hcomp, List.append_eq]
          rw [if_pos trivial]
        simp only [List.reverse_nil, List.nil_append]
        refine ⟨P :: ms', ?_, ?_, P, ms', rfl, hPccc⟩
        · rw [heq, composeGo_noComp d gd P hPno ms' [] y3 hms'f hy3]
          simp
        · have hdgo : decompose d (P :: ms') = L :: m :: ([] ++ ms') := by
            unfold decompose
            simp only [List.flatMap_cons]
            rw [show decChar d P = [L, m] from hdecP]
            unfold decompose at hdecompose_ms'
            rw [hdecompose_ms']
            rfl
          rw [hdgo]
          have hB : List.Pairwise (fun a b => d.ccc a ≤ d.ccc b) (m :: ms') := by simpa using hpw
          rw [reorder_group d L m [] ms' hL hm0 (by simp) (by simp) hms'f
            (fun w hw => (List.pairwise_cons.mp hB).1 w hw) (List.pairwise_cons.mp hB).2]
          rfl
      · by_cases hblk : d.ccc k0 < d.ccc m
        · -- unblocked composition over the kept marks
          have heq : composeGo d (some L) (k0 :: kept') [] ((m :: ms') ++ y3) =
              composeGo d (some P) (k0 :: kept') [] (ms' ++ y3) := by
            simp only [List.cons_append, composeGo, hcomp, List.append_eq]
            rw [if_pos (by simpa using hblk)]
          obtain ⟨hA, hB, hAB⟩ := List.pairwise_append.mp hpw
          have hmsp := (List.pairwise_cons.mp hB).2
          have hmw := (List.pairwise_cons.mp hB).1
          have hkmax : ∀ k ∈ (k0 :: kept').reverse, d.ccc k ≠ 0 ∧ d.ccc k < d.ccc m := by
            intro k hk
            have hkm : k ∈ k0 :: kept' := List.mem_reverse.mp hk
            refine ⟨(hkept k hkm).1, ?_⟩
            rcases List.mem_cons.mp hkm with rfl | hkm'
            · exact hblk
            · -- k ∈ kept': in kept.reverse it precedes k0, so ccc k ≤ ccc k0 < ccc m
              have hsplit : (k0 :: kept').reverse = kept'.reverse ++ [k0] := by simp
              rw [hsplit] at hA
              obtain ⟨_, _, hle⟩ := List.pairwise_append.mp hA
              have := hle k (List.mem_reverse.mpr hkm') k0 (by simp)
              omega
          refine ⟨P :: ((k0 :: kept').reverse ++ ms'), ?_, ?_, P, _, rfl, hPccc⟩
          · rw [heq, composeGo_noComp d gd P hPno ms' (k0 :: kept') y3 hms'f hy3]
          · have hdgo : decompose d (P :: ((k0 :: kept').reverse ++ ms')) =
                L :: m :: ((k0 :: kept').reverse ++ ms') := by
              unfold decompose
              simp only [List.flatMap_cons]
              rw [show decChar d P = [L, m] from hdecP]
              have hdfK : DecFree d ((k0 :: kept').reverse ++ ms') := by
                intro x hx
                rcases List.mem_append.mp hx with hx | hx
                · exact (hkept x (List.mem_reverse.mp hx)).2
                · exact hms'dec x hx
              have := decompose_id_of_decFree d _ hdfK
              unfold decompose at this
              rw [this]
              rfl
            rw [hdgo]
            rw [reorder_group d L m ((k0 :: kept').reverse) ms' hL hm0 hkmax hA hms'f hmw hmsp]
        · -- blocked composition: the mark is kept
          have heq : composeGo d (some L) (k0 :: kept') [] ((m :: ms') ++ y3) =
              composeGo d (some L) (m :: k0 :: kept') [] (ms' ++ y3) := by
            simp only [List.cons_append, composeGo, hcomp, List.append_eq]
            rw [if_neg (by simpa using hblk), if_neg hm0]
          obtain ⟨GO, h1, h2, h3⟩ := ih (m :: k0 :: kept') L y3 hLdec hL
            (fun x hx => hms x (by simp [hx]))
            (by
              intro k hk
              rcases List.mem_cons.mp hk with h | h
              · subst h
                exact hms k (by simp)
              · exact hkept k h)
            (by
              have hsame : (m :: k0 :: kept').reverse ++ ms' =
                  (k0 :: kept').reverse ++ (m :: ms') := by simp
              rw [hsame]
              exact hpw)
            hy3
          refine ⟨GO, ?_, ?_, h3⟩
          · rw [heq, h1]
          · rw [h2]
            simp

theorem decompose_append (d : UniData) (A B : List Char) :
    decompose d (A ++ B) = decompose d A ++ decompose d B := by
  unfold decompose
  exact List.flatMap_append A B (decChar d)

theorem decompose_head_starter (d : UniData) (gd : GoodData d) (S : Char) (tl : List Char)
    (hS : d.ccc S = 0) :
    ∃ a rest, decompose d (S :: tl) = a :: rest ∧ d.ccc a = 0 := by
  unfold decompose
  simp only [List.flatMap_cons]
  rcases hdec : d.dec S with _ | ⟨a, b⟩
  · rw [show decChar d S = [S] by unfold decChar; rw [hdec]]
    exact ⟨S, _, rfl, hS⟩
  · rw [show decChar d S = [a, b] by unfold decChar; rw [hdec]]
    exact ⟨a, _, rfl, (gd.dec_starter S a b hdec).2⟩

theorem chain'_P_to_le (d : UniData) :
    ∀ ms : List Char, (∀ m ∈ ms, d.ccc m ≠ 0) →
      List.Chain' (fun x y => d.ccc y = 0 ∨ d.ccc x ≤ d.ccc y) ms →
      List.Chain' (fun a b => d.ccc a ≤ d.ccc b) ms
  | [], _, _ => List.chain'_nil
  | [_], _, _ => by simp
  | m1 :: m2 :: rest, hmem, hch => by
    rw [List.chain'_cons] at hch ⊢
    refine ⟨?_, chain'_P_to_le d (m2 :: rest) (fun x hx => hmem x (by simp [hx])) hch.2⟩
    rcases hch.1 with h | h
    · exact absurd h (hmem m2 (by simp))
    · exact h

theorem composeL_nfd_inverse (d : UniData) (gd : GoodData d) :
    ∀ (n : Nat) (y : List Char), y.length ≤ n → DecFree d y → OrdOK d y →
      reorder d (decompose d (composeL d y)) = y ∧
      (∀ s ytl, y = s :: ytl → d.ccc s = 0 →
        ∃ S tl, composeL d y = S :: tl ∧ d.ccc S = 0) := by
  intro n
  induction n with
  | zero =>
    intro y hy _ _
    obtain rfl : y = [] := List.length_eq_zero.mp (Nat.le_zero.mp hy)
    refine ⟨rfl, ?_⟩
    intro s ytl h _
    cases h
  | succ n ih =>
    intro y hlen hdf hord
    rcases y with _ | ⟨c, ytail⟩
    · refine ⟨rfl, ?_⟩
      intro s ytl h _
      cases h
    have hlen2 : ytail.length ≤ n := by
      simp only [List.length_cons] at hlen
      omega
    by_cases hc : d.ccc c = 0
    · -- starter-headed text: one group, then the rest
      set ms := ytail.takeWhile (fun x => !(d.ccc x == 0)) with hms_def
      set y3 := ytail.dropWhile (fun x => !(d.ccc x == 0)) with hy3_def
      have hsplit : ms ++ y3 = ytail := List.takeWhile_append_dropWhile ..
      have hms_mark : ∀ m ∈ ms, d.ccc m ≠ 0 ∧ d.dec m = none := by
        intro m hm
        constructor
        · have := List.mem_takeWhile_imp hm
          simpa using this
        · refine hdf m ?_
          have : m ∈ ytail := (List.takeWhile_sublist _).subset hm
          simp [this]
      have hy3_shape : y3 = [] ∨ ∃ s y', y3 = s :: y' ∧ d.ccc s = 0 := by
        rcases h3 : y3 with _ | ⟨s, y'⟩
        · exact Or.inl rfl
        · right
          refine ⟨s, y', rfl, ?_⟩
          have h2 := List.head?_dropWhile_not (fun x => !(d.ccc x == 0)) ytail
          rw [← hy3_def, h3] at h2
          simpa using h2
      have hordtail : OrdOK d ytail := hord.tail
      have hchain_ms : List.Chain' (fun x y => d.ccc y = 0 ∨ d.ccc x ≤ d.ccc y) ms :=
        (List.chain'_append.mp (by rw [hsplit]; exact hordtail)).1
      have hpw : List.Pairwise (fun a b => d.ccc a ≤ d.ccc b) ms := by
        letI : IsTrans Char (fun a b => d.ccc a ≤ d.ccc b) :=
          ⟨fun a b c h1 h2 => le_trans h1 h2⟩
        exact List.chain'_iff_pairwise.mp
          (chain'_P_to_le d ms (fun m hm => (hms_mark m hm).1) hchain_ms)
      have hcdec : d.dec c = none := hdf c (by simp)
      obtain ⟨GO, hGOeq, hGOre, S, tl, hGO, hS⟩ :=
        composeGo_group d gd ms [] c y3 hcdec hc hms_mark (by simp)
          (by simpa using hpw) hy3_shape
      have hcl : composeL d (c :: ytail) = GO ++ composeL d y3 := by
        rw [composeL_cons_starter d c hc, ← hsplit, hGOeq]
      have hy3len : y3.length ≤ n := by
        have h1 : ms.length + y3.length = ytail.length := by
          rw [← List.length_append, hsplit]
        omega
      have hy3df : DecFree d y3 := by
        intro x hx
        refine hdf x ?_
        have : x ∈ ytail := (List.dropWhile_sublist _).subset hx
        simp [this]
      have hy3ord : OrdOK d y3 :=
        (List.chain'_append.mp (by rw [hsplit]; exact hordtail)).2.1
      obtain ⟨ihre, ihhd⟩ := ih y3 hy3len hy3df hy3ord
      constructor
      · rw [hcl]
        rcases hy3_shape with h3 | ⟨s, y', h3, hs0⟩
        · rw [h3]
          show reorder d (decompose d (GO ++ [])) = c :: ytail
          rw [List.append_nil, hGOre, ← hsplit, h3]
          simp
        · obtain ⟨S2, tl2, hS2eq, hS2⟩ := ihhd s y' h3 hs0
          obtain ⟨a, arest, hdec2, ha⟩ := decompose_head_starter d gd S2 tl2 hS2
          rw [hS2eq, decompose_append, hdec2,
            reorder_append_starter d (decompose d GO) arest a ha, hGOre, ← hdec2, ← hS2eq,
            ihre, ← hsplit]
          simp
      · intro s2 ytl2 _ _
        refine ⟨S, tl ++ composeL d y3, ?_, hS⟩
        rw [hcl, hGO]
        rfl
    · -- the text begins with combining marks: they are all kept verbatim
      set ms2 := (c :: ytail).takeWhile (fun x => !(d.ccc x == 0)) with hms2_def
      set y2 := (c :: ytail).dropWhile (fun x => !(d.ccc x == 0)) with hy2_def
      have hsplit : ms2 ++ y2 = c :: ytail := List.takeWhile_append_dropWhile ..
      have hms2_mark : ∀ m ∈ ms2, d.ccc m ≠ 0 ∧ d.dec m = none := by
        intro m hm
        constructor
        · have := List.mem_takeWhile_imp hm
          simpa using this
        · refine hdf m ?_
          exact (List.takeWhile_sublist _).subset hm
      have hms2_cons : ∃ mtl, ms2 = c :: mtl := by
        rw [hms2_def]
        rw [List.takeWhile_cons_of_pos (by simpa using hc)]
        exact ⟨_, rfl⟩
      have hy2len : y2.length ≤ n := by
        obtain ⟨mtl, hm⟩ := hms2_cons
        have h1 : ms2.length + y2.length = ytail.length + 1 := by
          rw [← List.length_append, hsplit, List.length_cons]
        have h2 : 0 < ms2.length := by rw [hm]; simp
        omega
      have hy2df : DecFree d y2 := fun x hx => hdf x ((List.dropWhile_sublist _).subset hx)
      have hy2ord : OrdOK d y2 :=
        (List.chain'_append.mp (by rw [hsplit]; exact hord)).2.1
      have hms2ord : OrdOK d ms2 :=
        (List.chain'_append.mp (by rw [hsplit]; exact hord)).1
      have hms2df : DecFree d ms2 := fun x hx => (hms2_mark x hx).2
      have hstep1 : composeL d (c :: ytail) = composeGo d none ms2.reverse [] y2 := by
        show composeGo d none [] [] (c :: ytail) = _
        rw [← hsplit, composeGo_none_marks d ms2 [] y2 (fun m hm => (hms2_mark m hm).1)]
        rw [List.append_nil]
      obtain ⟨ihre, ihhd⟩ := ih y2 hy2len hy2df hy2ord
      have hmain : reorder d (decompose d (composeL d (c :: ytail))) = c :: ytail := by
        rcases h2 : y2 with _ | ⟨s, y''⟩
        · rw [hstep1, h2, composeGo_none_done, List.reverse_reverse]
          rw [decompose_id_of_decFree d ms2 hms2df, reorder_id_of_ordOK d ms2 hms2ord]
          rw [← hsplit, h2, List.append_nil]
        · have hs0 : d.ccc s = 0 := by
            have hh := List.head?_dropWhile_not (fun x => !(d.ccc x == 0)) (c :: ytail)
            rw [← hy2_def, h2] at hh
            simpa using hh
          have hstep2 : composeL d (c :: ytail) = ms2 ++ composeL d y2 := by
            rw [hstep1, h2, composeGo_none_starter d ms2.reverse s y'' hs0,
              List.reverse_reverse, ← composeL_cons_starter d s hs0 y'']
          obtain ⟨S2, tl2, hS2eq, hS2⟩ := ihhd s y'' h2 hs0
          obtain ⟨a, arest, hdec2, ha⟩ := decompose_head_starter d gd S2 tl2 hS2
          rw [hstep2, decompose_append, decompose_id_of_decFree d ms2 hms2df,
            hS2eq, hdec2, reorder_append_starter d ms2 arest a ha,
            reorder_id_of_ordOK d ms2 hms2ord, ← hdec2, ← hS2eq, ihre, hsplit]
      refine ⟨hmain, ?_⟩
      intro s2 ytl2 heq2 hs2
      have hcs : c = s2 := ((List.cons.injEq ..).mp heq2).1
      rw [← hcs] at hs2
      exact absurd hs2 hc

theorem nfcL_idem (d : UniData) (gd : GoodData d) (s : List Char) :
    nfcL d (nfcL d s) = nfcL d s := by
  unfold nfcL
  have hdf : DecFree d (nfdL d s) := fun c hc =>
    decompose_decFree d gd s c ((reorder_perm d _).mem_iff.mp hc)
  have hord : OrdOK d (nfdL d s) := reorder_ordOK d _
  have hmain :=
    (composeL_nfd_inverse d gd (nfdL d s).length (nfdL d s) le_rfl hdf hord).1
  show composeL d (nfdL d (composeL d (nfdL d s))) = composeL d (nfdL d s)
  have : nfdL d (composeL d (nfdL d s)) = nfdL d s := by
    unfold nfdL at hmain ⊢
    exact hmain
  rw [this]

theorem udata_dec_mem (c a b : Char) (h : udata.dec c = some (a, b)) :
    (c, a, b) ∈ decTable := by
  simp only [udata] at h
  rcases hf : decTable.find? (fun p => p.1 == c) with _ | p
  · rw [hf] at h
    simp at h
  · rw [hf] at h
    have hsnd : p.2 = (a, b) := by simpa using h
    have hmem := List.mem_of_find?_eq_some hf
    have hpred := List.find?_some hf
    have hfst : p.1 = c := by simpa using hpred
    obtain ⟨p1, p2⟩ := p
    simp only at hfst hsnd
    rw [hfst, hsnd] at hmem
    exact hmem

theorem udata_comp_mem (a b p : Char) (h : udata.comp a b = some p) :
    (p, a, b) ∈ decTable := by
  simp only [udata] at h
  rcases hf : decTable.find? (fun q => q.2.1 == a && q.2.2 == b) with _ | q
  · rw [hf] at h
    simp at h
  · rw [hf] at h
    have hq1 : q.1 = p := by simpa using h
    have hmem := List.mem_of_find?_eq_some hf
    have hpred := List.find?_some hf
    have hq23 : q.2.1 = a ∧ q.2.2 = b := by simpa using hpred
    obtain ⟨q1, q2, q3⟩ := q
    simp only at hq1 hq23
    rw [hq1, hq23.1, hq23.2] at hmem
    exact hmem

/-- The modelled character data satisfies the canonical-data invariants. -/
theorem gooddata_udata : GoodData udata := by
  have hall1 : ∀ e ∈ decTable, udata.dec e.2.1 = none ∧ udata.dec e.2.2 = none := by decide
  have hall2 : ∀ e ∈ decTable, udata.ccc e.1 = 0 ∧ udata.ccc e.2.1 = 0 := by decide
  have hall3 : ∀ e ∈ decTable, udata.dec e.1 = some (e.2.1, e.2.2) := by decide
  have hall4 : ∀ e ∈ decTable, udata.ccc e.2.2 ≠ 0 := by decide
  have hall5 : ∀ e ∈ decTable, udata.ccc e.1 = 0 := by decide
  have hall6 : ∀ e ∈ decTable, udata.dec e.2.1 = none := by decide
  constructor
  · intro c a b h
    exact hall1 (c, a, b) (udata_dec_mem c a b h)
  · intro c a b h
    exact hall2 (c, a, b) (udata_dec_mem c a b h)
  · intro a b p h
    exact hall3 (p, a, b) (udata_comp_mem a b p h)
  · intro a b p h
    exact hall4 (p, a, b) (udata_comp_mem a b p h)
  · intro a b p h
    exact hall5 (p, a, b) (udata_comp_mem a b p h)
  · intro a b p h
    exact hall6 (p, a, b) (udata_comp_mem a b p h)

/-- C7: normalization is idempotent: applying `normalize_unicode_nfc` or
`normalize_unicode_nfd` twice yields the same text as applying it once,
for every text. -/
theorem normalization_idempotent (t : String) :
    normalize_unicode_nfc (normalize_unicode_nfc t) = normalize_unicode_nfc t ∧
      normalize_unicode_nfd (normalize_unicode_nfd t) = normalize_unicode_nfd t := by
  unfold normalize_unicode_nfc normalize_unicode_nfd
  exact ⟨congrArg String.mk (nfcL_idem udata gooddata_udata t.data),
    congrArg String.mk (nfdL_idem udata gooddata_udata t.data)⟩

end SpcIngestion
